import Mathlib

/-!
Verification of the GAN utility library `implementation/generative_models/utils.py`:
the `MinibatchDiscrimination` layer (construction, forward computation `call`,
`compute_output_shape`), the dataset reshaping helper `split_data`, and the
Wasserstein-GAN weight clipping helper `clip_weights`.

Tensors are shallowly embedded as `Fin`-indexed real-valued functions; a batch
of shape (N, D) is `Fin N → Fin D → ℝ`.  Dynamically shaped arrays (for shape
claims and for the numpy helpers) are embedded as nested lists of reals.
-/

open scoped BigOperators

noncomputable section

namespace GanUtils

namespace MinibatchDiscrimination

/-- `K.dot(x, self.W)` for `x` of shape (N, D) and `W` of shape (K, D, C)
(utils.py line 169).  Keras reproduces the Theano behaviour for a 2-D by 3-D
dot: the last axis of `x` is contracted with the second-to-last axis of `W`,
giving shape (N, K, C) with entries `sum_d x[n,d] * W[k,d,c]`. -/
def kerasDot {N D K C : ℕ} (x : Fin N → Fin D → ℝ) (W : Fin K → Fin D → Fin C → ℝ) :
    Fin N → Fin K → Fin C → ℝ :=
  fun n k c => ∑ d, x n d * W k d c

/-- Line 169: `activation = K.reshape(K.dot(x, self.W), (-1, self.nb_kernels, self.kernel_dim))`.
The dot product already has shape (N, nb_kernels, kernel_dim), so the reshape
with inferred leading dimension `-1` is the identity re-indexing. -/
def activation {N D K C : ℕ} (x : Fin N → Fin D → ℝ) (W : Fin K → Fin D → Fin C → ℝ) :
    Fin N → Fin K → Fin C → ℝ :=
  kerasDot x W

/-- `K.permute_dimensions(activation, [1, 2, 0])` (line 170): transposes an
(N, K, C) tensor to shape (K, C, N). -/
def permute120 {N K C : ℕ} (t : Fin N → Fin K → Fin C → ℝ) :
    Fin K → Fin C → Fin N → ℝ :=
  fun k c n => t n k c

/-- Line 170: `diffs = K.expand_dims(activation, 3) - K.expand_dims(K.permute_dimensions(activation, [1, 2, 0]), 0)`.
The first operand has shape (N, K, C, 1), the second (1, K, C, N); broadcasting
yields shape (N, K, C, N) with `diffs[n,k,c,m] = activation[n,k,c] - activation[m,k,c]`. -/
def diffs {N D K C : ℕ} (x : Fin N → Fin D → ℝ) (W : Fin K → Fin D → Fin C → ℝ) :
    Fin N → Fin K → Fin C → Fin N → ℝ :=
  fun n k c m => activation x W n k c - permute120 (activation x W) k c m

/-- Line 171: `abs_diffs = K.sum(K.abs(diffs), axis=2)`, the sum over the
projected axis `c`, of shape (N, K, N). -/
def abs_diffs {N D K C : ℕ} (x : Fin N → Fin D → ℝ) (W : Fin K → Fin D → Fin C → ℝ) :
    Fin N → Fin K → Fin N → ℝ :=
  fun n k m => ∑ c, |diffs x W n k c m|

/-- Lines 172-174: `minibatch_features = K.sum(K.exp(-abs_diffs), axis=2)`,
the value returned by `MinibatchDiscrimination.call` (the concatenation with
`x` on line 173 is commented out in the source), of shape (N, K). -/
def call {N D K C : ℕ} (x : Fin N → Fin D → ℝ) (W : Fin K → Fin D → Fin C → ℝ) :
    Fin N → Fin K → ℝ :=
  fun n k => ∑ m, Real.exp (-(abs_diffs x W n k m))

/-- The forward output laid out as a list of rows (one per sample, one entry
per kernel), used to state shape facts about the result of `call`. -/
def callList {N D K C : ℕ} (x : Fin N → Fin D → ℝ) (W : Fin K → Fin D → Fin C → ℝ) :
    List (List ℝ) :=
  List.ofFn fun n => List.ofFn fun k => call x W n k

/-- Lines 176-179: `compute_output_shape` asserts a rank-2 input shape
(encoded here in the type: an optional batch dimension paired with the feature
dimension) and returns `(input_shape[0], self.nb_kernels)`. -/
def compute_output_shape (input_shape : Option ℕ × ℕ) (nb_kernels : ℕ) :
    Option ℕ × ℕ :=
  (input_shape.1, nb_kernels)

/-- Layer configuration stored by `MinibatchDiscrimination.__init__`
(lines 131-149): the kernel count, kernel dimension and optional input
dimension (initializer, regularizers and constraints are opaque framework
objects with no bearing on the verified claims). -/
structure Config where
  nb_kernels : ℤ
  kernel_dim : ℤ
  input_dim : Option ℤ

/-- The error the specification says construction raises on a non-positive
configuration value.  No such exception class exists anywhere in the source. -/
structure ConfigError where

/-- `MinibatchDiscrimination.__init__` (lines 131-149): stores
`nb_kernels`, `kernel_dim` and `input_dim` on the instance and calls the
base-class constructor.  It performs no validation whatsoever, so it never
raises: the result is always `Except.ok`. -/
def init (nb_kernels kernel_dim : ℤ) (input_dim : Option ℤ) :
    Except ConfigError Config :=
  Except.ok ⟨nb_kernels, kernel_dim, input_dim⟩

end MinibatchDiscrimination

/-- Spec §4.1 step 1: `activation[n,k,:] = InputBatch[n,:] · ProjectionWeights[k,:,:]`,
a (D)→(C) linear map per kernel, shape (N, K, C). -/
def specActivation {N D K C : ℕ} (x : Fin N → Fin D → ℝ) (W : Fin K → Fin D → Fin C → ℝ) :
    Fin N → Fin K → Fin C → ℝ :=
  fun n k c => ∑ d, x n d * W k d c

/-- Spec §4.1 steps 2-3: the pairwise difference
`activation[n,k,:] - activation[m,k,:]` and its L1 norm `dist[n,m,k]`,
shape (N, N, K). -/
def specDist {N D K C : ℕ} (x : Fin N → Fin D → ℝ) (W : Fin K → Fin D → Fin C → ℝ) :
    Fin N → Fin N → Fin K → ℝ :=
  fun n m k => ∑ c, |specActivation x W n k c - specActivation x W m k c|

/-- Spec §4.1 steps 4-5: kernelize with `exp(-dist[n,m,k])` and aggregate over
all `m` (including `m = n`): `OutputFeatures[n,k] = Σ_m exp(-dist[n,m,k])`. -/
def specOutputFeatures {N D K C : ℕ} (x : Fin N → Fin D → ℝ) (W : Fin K → Fin D → Fin C → ℝ) :
    Fin N → Fin K → ℝ :=
  fun n k => ∑ m, Real.exp (-(specDist x W n m k))

/-- The aggregation step of lines 172-174 in isolation, over an arbitrary
pairwise-distance tensor of shape (N, N, K):
`OutputFeatures[n,k] = Σ_m exp(-dist[n,m,k])`. -/
def aggregateFeatures {N K : ℕ} (dist : Fin N → Fin N → Fin K → ℝ) :
    Fin N → Fin K → ℝ :=
  fun n k => ∑ m, Real.exp (-(dist n m k))

/-- Claim C1: the tensor composition implemented by `MinibatchDiscrimination.call`
(reshape of `K.dot(x, W)`, broadcast pairwise subtraction via
expand_dims/permute_dimensions, sum of absolute values over the projected axis,
elementwise exp of the negated distances, sum over the batch axis) agrees with
the spec's five-step reference algorithm at every step: projection, pairwise L1
distance, and exp-kernelized aggregation over all m including m = n. -/
theorem call_refines_spec {N D K C : ℕ} (x : Fin N → Fin D → ℝ)
    (W : Fin K → Fin D → Fin C → ℝ) :
    (∀ n k c, MinibatchDiscrimination.activation x W n k c = specActivation x W n k c) ∧
    (∀ n m k, MinibatchDiscrimination.abs_diffs x W n k m = specDist x W n m k) ∧
    (∀ n k, MinibatchDiscrimination.call x W n k = specOutputFeatures x W n k) :=
  ⟨fun _ _ _ => rfl, fun _ _ _ => rfl, fun _ _ => rfl⟩

/-- Claim C2: for an input batch of shape (N, D) and weights of shape (K, D, C),
the output of `call` has shape (N, K) — N rows of K entries — and
`compute_output_shape` reports exactly `(input_shape[0], nb_kernels)`. -/
theorem call_output_shape {N D K C : ℕ} (x : Fin N → Fin D → ℝ)
    (W : Fin K → Fin D → Fin C → ℝ) :
    (MinibatchDiscrimination.callList x W).length = N ∧
    (∀ row ∈ MinibatchDiscrimination.callList x W, row.length = K) ∧
    (∀ b : Option ℕ, MinibatchDiscrimination.compute_output_shape (b, D) K = (b, K)) := by
  refine ⟨?_, ?_, fun _ => rfl⟩
  · simp [MinibatchDiscrimination.callList]
  · intro row hrow
    simp only [MinibatchDiscrimination.callList, List.mem_ofFn] at hrow
    obtain ⟨n, rfl⟩ := hrow
    simp

/-- Claim C4: for a batch of a single sample (N = 1), every output entry is
exactly 1: the only contribution is the self-distance term exp(0) = 1. -/
theorem call_single_sample {D K C : ℕ} (x : Fin 1 → Fin D → ℝ)
    (W : Fin K → Fin D → Fin C → ℝ) (n : Fin 1) (k : Fin K) :
    MinibatchDiscrimination.call x W n k = 1 := by
  have hnm : ∀ m : Fin 1, m = n := fun m => Subsingleton.elim m n
  simp [MinibatchDiscrimination.call, MinibatchDiscrimination.abs_diffs,
    MinibatchDiscrimination.diffs, MinibatchDiscrimination.permute120, hnm]

/-- Claim C6: the pairwise L1 distance tensor computed internally by `call`
(`abs_diffs`, indexed sample-kernel-sample) is symmetric in its two sample
indices. -/
theorem abs_diffs_symm {N D K C : ℕ} (x : Fin N → Fin D → ℝ)
    (W : Fin K → Fin D → Fin C → ℝ) (n m : Fin N) (k : Fin K) :
    MinibatchDiscrimination.abs_diffs x W n k m = MinibatchDiscrimination.abs_diffs x W m k n := by
  unfold MinibatchDiscrimination.abs_diffs MinibatchDiscrimination.diffs
    MinibatchDiscrimination.permute120
  exact Finset.sum_congr rfl fun c _ => abs_sub_comm _ _

/-- The concrete input batch of the spec's scenario: N = 2, D = 3,
`InputBatch = [[1,0,0],[3,0,0]]`. -/
def scenarioX : Fin 2 → Fin 3 → ℝ := ![![1, 0, 0], ![3, 0, 0]]

/-- The concrete projection weights of the spec's scenario: K = 1, D = 3, C = 1,
`ProjectionWeights = [[[1],[0],[0]]]` (projects to the first coordinate only). -/
def scenarioW : Fin 1 → Fin 3 → Fin 1 → ℝ := ![![![1], ![0], ![0]]]

/-- Claim C5: on the concrete instance N=2, D=3, K=1, C=1 with
`ProjectionWeights = [[[1],[0],[0]]]` and `InputBatch = [[1,0,0],[3,0,0]]`,
the computation produces activation `[[1],[3]]`, pairwise distances
`dist[0,1] = dist[1,0] = 2` and `dist[0,0] = dist[1,1] = 0`, and
`OutputFeatures = [1 + exp(-2), 1 + exp(-2)]`. -/
theorem call_concrete_scenario :
    MinibatchDiscrimination.activation scenarioX scenarioW 0 0 0 = 1 ∧
    MinibatchDiscrimination.activation scenarioX scenarioW 1 0 0 = 3 ∧
    MinibatchDiscrimination.abs_diffs scenarioX scenarioW 0 0 1 = 2 ∧
    MinibatchDiscrimination.abs_diffs scenarioX scenarioW 1 0 0 = 2 ∧
    MinibatchDiscrimination.abs_diffs scenarioX scenarioW 0 0 0 = 0 ∧
    MinibatchDiscrimination.abs_diffs scenarioX scenarioW 1 0 1 = 0 ∧
    MinibatchDiscrimination.call scenarioX scenarioW 0 0 = 1 + Real.exp (-2) ∧
    MinibatchDiscrimination.call scenarioX scenarioW 1 0 = 1 + Real.exp (-2) := by
  have hact : ∀ n : Fin 2, MinibatchDiscrimination.activation scenarioX scenarioW n 0 0 =
      scenarioX n 0 := by
    intro n
    have hsum : MinibatchDiscrimination.activation scenarioX scenarioW n 0 0 =
        ∑ d, scenarioX n d * scenarioW 0 d 0 := rfl
    have h0 : scenarioW 0 0 0 = 1 := rfl
    have h1 : scenarioW 0 1 0 = 0 := rfl
    have h2 : scenarioW 0 2 0 = 0 := rfl
    rw [hsum, Fin.sum_univ_three, h0, h1, h2, mul_one, mul_zero, mul_zero, add_zero, add_zero]
  have habs : ∀ n m : Fin 2, MinibatchDiscrimination.abs_diffs scenarioX scenarioW n 0 m =
      |scenarioX n 0 - scenarioX m 0| := by
    intro n m
    simp [MinibatchDiscrimination.abs_diffs, MinibatchDiscrimination.diffs,
      MinibatchDiscrimination.permute120, Fin.sum_univ_one, hact]
  have hx0 : scenarioX 0 0 = 1 := by simp [scenarioX]
  have hx1 : scenarioX 1 0 = 3 := by simp [scenarioX]
  refine ⟨by rw [hact, hx0], by rw [hact, hx1], ?_, ?_, ?_, ?_, ?_, ?_⟩
  · rw [habs, hx0, hx1]; norm_num
  · rw [habs, hx0, hx1]; norm_num
  · rw [habs]; norm_num
  · rw [habs]; norm_num
  · rw [show MinibatchDiscrimination.call scenarioX scenarioW 0 0 =
        ∑ m, Real.exp (-(MinibatchDiscrimination.abs_diffs scenarioX scenarioW 0 0 m)) from rfl,
      Fin.sum_univ_two, habs, habs, hx0, hx1]
    norm_num [Real.exp_zero, add_comm]
  · rw [show MinibatchDiscrimination.call scenarioX scenarioW 1 0 =
        ∑ m, Real.exp (-(MinibatchDiscrimination.abs_diffs scenarioX scenarioW 1 0 m)) from rfl,
      Fin.sum_univ_two, habs, habs, hx0, hx1]
    norm_num [Real.exp_zero, add_comm]

/-- Each internal pairwise L1 distance is nonnegative (a sum of absolute values). -/
lemma abs_diffs_nonneg {N D K C : ℕ} (x : Fin N → Fin D → ℝ)
    (W : Fin K → Fin D → Fin C → ℝ) (n m : Fin N) (k : Fin K) :
    0 ≤ MinibatchDiscrimination.abs_diffs x W n k m :=
  Finset.sum_nonneg fun _ _ => abs_nonneg _

/-- Claim C7: every entry of the output lies in the half-open interval (0, N]:
each of the N summed terms exp(-dist) lies in (0, 1], so the sum is positive
and at most N. -/
theorem call_mem_Ioc {N D K C : ℕ} (x : Fin N → Fin D → ℝ)
    (W : Fin K → Fin D → Fin C → ℝ) (n : Fin N) (k : Fin K) :
    0 < MinibatchDiscrimination.call x W n k ∧
      MinibatchDiscrimination.call x W n k ≤ (N : ℝ) := by
  unfold MinibatchDiscrimination.call
  constructor
  · exact Finset.sum_pos (fun m _ => Real.exp_pos _) ⟨n, Finset.mem_univ n⟩
  · calc ∑ m, Real.exp (-(MinibatchDiscrimination.abs_diffs x W n k m)) ≤
        ∑ _m : Fin N, (1 : ℝ) :=
          Finset.sum_le_sum fun m _ =>
            Real.exp_le_one_iff.mpr (neg_nonpos.mpr (abs_diffs_nonneg x W n m k))
    _ = (N : ℝ) := by simp

/-- Claim C8: the aggregation step is antitone in the pairwise distances: if
every off-diagonal distance does not decrease while the diagonal stays at 0,
no output entry increases. -/
theorem aggregateFeatures_antitone {N K : ℕ} (dist dist' : Fin N → Fin N → Fin K → ℝ)
    (hoff : ∀ n m k, n ≠ m → dist n m k ≤ dist' n m k)
    (hdiag : ∀ n k, dist n n k = 0) (hdiag' : ∀ n k, dist' n n k = 0)
    (n : Fin N) (k : Fin K) :
    aggregateFeatures dist' n k ≤ aggregateFeatures dist n k := by
  unfold aggregateFeatures
  refine Finset.sum_le_sum fun m _ => ?_
  rcases eq_or_ne n m with rfl | hnm
  · rw [hdiag, hdiag']
  · exact Real.exp_le_exp.mpr (neg_le_neg (hoff n m k hnm))

/-- Witness for C8: with all distances 0 versus off-diagonal distances raised
to 1 on a batch of two samples, the aggregated feature does not increase. -/
theorem aggregateFeatures_antitone_witness :
    aggregateFeatures (fun (n m : Fin 2) (_ : Fin 1) => if n = m then (0 : ℝ) else 1) 0 0 ≤
      aggregateFeatures (fun (_ : Fin 2) (_ : Fin 2) (_ : Fin 1) => (0 : ℝ)) 0 0 :=
  aggregateFeatures_antitone _ _
    (by intro n m k h; rw [if_neg h]; norm_num)
    (fun n k => rfl)
    (by intro n k; simp)
    0 0

/-- Claim C3 as stated is false: `MinibatchDiscrimination.__init__` performs
no validation, so constructing a layer with `nb_kernels = 0` and
`kernel_dim = 0` (both non-positive) succeeds and returns an instance instead
of raising a ConfigError. -/
theorem init_nonpositive_succeeds :
    MinibatchDiscrimination.init 0 0 none = Except.ok ⟨0, 0, none⟩ := rfl

/-- Claim C3 amended: construction never raises — for every `nb_kernels` and
`kernel_dim`, including non-positive values, `__init__` returns a layer
instance storing the given configuration unchecked; no ConfigError exists in
the code. -/
theorem init_never_raises (nb_kernels kernel_dim : ℤ) (input_dim : Option ℤ) :
    MinibatchDiscrimination.init nb_kernels kernel_dim input_dim =
      Except.ok ⟨nb_kernels, kernel_dim, input_dim⟩ := rfl

/-- `np.clip(w, -clip_value, clip_value)` applied to one entry: numpy clips by
taking the maximum with the lower bound and then the minimum with the upper
bound. -/
def npClip (x lo hi : ℝ) : ℝ := min (max x lo) hi

/-- `clip_weights` (utils.py lines 114-117): a model is embedded as the list,
per layer, of its weight arrays, each flattened to its list of entries
(`l.get_weights()`); the function replaces every entry by its clip to
`[-clip_value, clip_value]` (`l.set_weights`). -/
def clip_weights (model : List (List (List ℝ))) (clip_value : ℝ) : List (List (List ℝ)) :=
  model.map fun l => l.map fun w => w.map fun v => npClip v (-clip_value) clip_value

/-- A list is pointwise related to its image under a map whenever the relation
holds between each element and its image. -/
lemma forall₂_self_map {α : Type*} (R : α → α → Prop) (f : α → α) (h : ∀ a, R a (f a)) :
    ∀ l : List α, List.Forall₂ R l (l.map f) := by
  intro l
  induction l with
  | nil => simp
  | cons a t ih => exact List.Forall₂.cons (h a) ih

/-- Claim C10: for `clip_value ≥ 0`, after `clip_weights` every entry of every
weight array of every layer lies in `[-clip_value, clip_value]`, and (pointwise
along the preserved layer/array/entry structure) entries already within that
interval are unchanged. -/
theorem clip_weights_correct (model : List (List (List ℝ))) (c : ℝ) (hc : 0 ≤ c) :
    (∀ l ∈ clip_weights model c, ∀ w ∈ l, ∀ v ∈ w, -c ≤ v ∧ v ≤ c) ∧
    List.Forall₂ (List.Forall₂ (List.Forall₂ fun v v' => -c ≤ v → v ≤ c → v' = v))
      model (clip_weights model c) := by
  constructor
  · intro l hl w hw v hv
    simp only [clip_weights, List.mem_map] at hl
    obtain ⟨l0, _, rfl⟩ := hl
    simp only [List.mem_map] at hw
    obtain ⟨w0, _, rfl⟩ := hw
    simp only [List.mem_map] at hv
    obtain ⟨v0, _, rfl⟩ := hv
    exact ⟨le_min (le_max_right _ _) (neg_le_self hc), min_le_right _ _⟩
  · refine forall₂_self_map _ _ (fun l => ?_) model
    refine forall₂_self_map _ _ (fun w => ?_) l
    refine forall₂_self_map _ _ (fun v => ?_) w
    intro hlo hhi
    unfold npClip
    rw [max_eq_left hlo, min_eq_left hhi]

/-- Witness for C10: a one-layer, one-array model with entries 2, -5 and 0.3
clipped at 1. -/
theorem clip_weights_correct_witness :
    (∀ l ∈ clip_weights [[[2, -5, 0.3]]] 1, ∀ w ∈ l, ∀ v ∈ w, -1 ≤ v ∧ v ≤ 1) ∧
    List.Forall₂ (List.Forall₂ (List.Forall₂ fun v v' => -1 ≤ v → v ≤ 1 → v' = v))
      [[[2, -5, 0.3]]] (clip_weights [[[2, -5, 0.3]]] 1) :=
  clip_weights_correct [[[2, -5, 0.3]]] 1 (by norm_num)

/-- `split_data` (utils.py lines 83-94).  A dataset is its list of rows;
`cols` is `dataset.shape[1]`, the common row length, which numpy carries even
for an empty dataset.  `np.hsplit(dataset, [timesteps])` yields the first
`timesteps` columns (`row.take`) and the remaining columns (`row.drop`), and
`np.vstack` is list append.  The Python recursion never terminates when
`timesteps = 0` (each recursive call sees the same width, ending in a
RecursionError); that branch is mapped to `none` here solely to make the
function total, and every theorem below assumes `1 ≤ timesteps`. -/
def split_data (cols : ℕ) (dataset : List (List ℝ)) (timesteps : ℕ) :
    Option (List (List ℝ)) :=
  if _hlt : cols < timesteps then none
  else if _heq : cols = timesteps then some dataset
  else if _hzero : timesteps = 0 then none
  else
    match split_data (cols - timesteps) (dataset.map fun row => row.drop timesteps) timesteps with
    | some remaining => some ((dataset.map fun row => row.take timesteps) ++ remaining)
    | none => some (dataset.map fun row => row.take timesteps)
termination_by cols
decreasing_by omega

/-- The expected result of `split_data`: the successive `timesteps`-column
horizontal slices of the dataset, stacked vertically in order, with any final
slice narrower than `timesteps` discarded (slice `i` holds columns
`i*timesteps` to `(i+1)*timesteps - 1`, for `i < cols / timesteps`). -/
def splitDataSpec (timesteps cols : ℕ) (dataset : List (List ℝ)) : List (List ℝ) :=
  ((List.range (cols / timesteps)).map fun i =>
    dataset.map fun row => (row.drop (i * timesteps)).take timesteps).flatten

/-- Unfolding equation for `split_data` on a well-formed dataset: it returns
`none` exactly below width `timesteps` and the stacked slices otherwise. -/
lemma split_data_eq (timesteps : ℕ) (ht : 1 ≤ timesteps) :
    ∀ cols (dataset : List (List ℝ)), (∀ row ∈ dataset, row.length = cols) →
      split_data cols dataset timesteps =
        if cols < timesteps then none
        else some (splitDataSpec timesteps cols dataset) := by
  intro cols
  induction cols using Nat.strong_induction_on with
  | _ cols ih =>
    intro dataset hwf
    by_cases hlt : cols < timesteps
    · rw [split_data.eq_def, dif_pos hlt, if_pos hlt]
    · by_cases hceq : cols = timesteps
      · rw [split_data.eq_def, dif_neg hlt, dif_pos hceq, if_neg hlt]
        have hspec : splitDataSpec timesteps cols dataset = dataset := by
          unfold splitDataSpec
          rw [hceq, Nat.div_self (by omega)]
          simp only [List.range_succ, List.range_zero, List.nil_append, List.map_cons,
            List.map_nil, List.flatten_cons, List.flatten_nil, List.append_nil,
            Nat.zero_mul, List.drop_zero]
          rw [List.map_congr_left fun row hrow =>
            List.take_of_length_le (by rw [hwf row hrow, hceq])]
          exact List.map_id dataset
        rw [hspec]
      · have htlt : timesteps < cols := by omega
        rw [split_data.eq_def, dif_neg hlt, dif_neg hceq, dif_neg (by omega : ¬timesteps = 0),
          if_neg hlt]
        have hwf' : ∀ row ∈ dataset.map (fun row => row.drop timesteps),
            row.length = cols - timesteps := by
          intro row hr
          simp only [List.mem_map] at hr
          obtain ⟨r, hrmem, rfl⟩ := hr
          rw [List.length_drop, hwf r hrmem]
        have hrec := ih (cols - timesteps) (by omega)
          (dataset.map fun row => row.drop timesteps) hwf'
        by_cases hrem : cols - timesteps < timesteps
        · rw [hrec, if_pos hrem]
          have hdiv : cols / timesteps = 1 := by
            rw [Nat.div_eq_sub_div (by omega) (le_of_lt htlt), Nat.div_eq_of_lt hrem]
          show some (dataset.map fun row => row.take timesteps) =
            some (splitDataSpec timesteps cols dataset)
          unfold splitDataSpec
          rw [hdiv]
          simp [List.range_succ, Nat.zero_mul, List.drop_zero]
        · rw [hrec, if_neg hrem]
          show some ((dataset.map fun row => row.take timesteps) ++
              splitDataSpec timesteps (cols - timesteps)
                (dataset.map fun row => row.drop timesteps)) =
            some (splitDataSpec timesteps cols dataset)
          have hdiv : cols / timesteps = (cols - timesteps) / timesteps + 1 :=
            Nat.div_eq_sub_div (by omega) (le_of_lt htlt)
          have hslice : ∀ i : ℕ,
              (dataset.map fun row => row.drop timesteps).map
                (fun row => (row.drop (i * timesteps)).take timesteps) =
              dataset.map fun row => (row.drop ((i + 1) * timesteps)).take timesteps := by
            intro i
            rw [List.map_map]
            refine List.map_congr_left fun row _ => ?_
            show ((row.drop timesteps).drop (i * timesteps)).take timesteps = _
            rw [List.drop_drop]
            have harith : timesteps + i * timesteps = (i + 1) * timesteps := by ring
            rw [harith]
          congr 1
          unfold splitDataSpec
          rw [hdiv, List.range_succ_eq_map, List.map_cons, List.flatten_cons, List.map_map]
          congr 1
          · simp [Nat.zero_mul, List.drop_zero]
          · congr 1
            refine List.map_congr_left fun i _ => ?_
            rw [hslice i]
            rfl

/-- Row count of the stacked slices: one copy of the dataset's rows per
complete slice. -/
lemma splitDataSpec_length (timesteps cols : ℕ) (dataset : List (List ℝ)) :
    (splitDataSpec timesteps cols dataset).length = dataset.length * (cols / timesteps) := by
  unfold splitDataSpec
  rw [List.length_flatten, List.map_map]
  have hconst : (List.range (cols / timesteps)).map
      (List.length ∘ fun i => dataset.map fun row => (row.drop (i * timesteps)).take timesteps) =
      (List.range (cols / timesteps)).map fun _ => dataset.length :=
    List.map_congr_left fun i _ => by simp [List.length_map]
  rw [hconst]
  induction cols / timesteps with
  | zero => simp
  | succ n ihn =>
    rw [List.range_succ, List.map_append, List.sum_append, ihn]
    simp [Nat.mul_succ]

/-- Every row of the stacked slices has exactly `timesteps` entries. -/
lemma splitDataSpec_widths (timesteps cols : ℕ) (dataset : List (List ℝ))
    (hwf : ∀ row ∈ dataset, row.length = cols) :
    ∀ row ∈ splitDataSpec timesteps cols dataset, row.length = timesteps := by
  intro row hrow
  unfold splitDataSpec at hrow
  rw [List.mem_flatten] at hrow
  obtain ⟨l, hl, hrl⟩ := hrow
  rw [List.mem_map] at hl
  obtain ⟨i, hi, rfl⟩ := hl
  rw [List.mem_range] at hi
  rw [List.mem_map] at hrl
  obtain ⟨r, hr, rfl⟩ := hrl
  rw [List.length_take, List.length_drop, hwf r hr]
  have hle : (i + 1) * timesteps ≤ cols :=
    le_trans (Nat.mul_le_mul_right _ (Nat.succ_le_of_lt hi)) (Nat.div_mul_le_self _ _)
  refine min_eq_left (Nat.le_sub_of_add_le ?_)
  calc timesteps + i * timesteps = (i + 1) * timesteps := by ring
  _ ≤ cols := hle

/-- Claim C9: for a 2-dimensional dataset with rows of common length `cols`
and `timesteps ≥ 1`, `split_data` returns `none` exactly when
`cols < timesteps`; otherwise it returns the successive `timesteps`-column
horizontal slices stacked vertically (discarding any final narrower slice),
an array with `N * (cols / timesteps)` rows of exactly `timesteps` entries. -/
theorem split_data_correct (cols timesteps : ℕ) (dataset : List (List ℝ))
    (ht : 1 ≤ timesteps) (hwf : ∀ row ∈ dataset, row.length = cols) :
    (split_data cols dataset timesteps = none ↔ cols < timesteps) ∧
    (timesteps ≤ cols →
      split_data cols dataset timesteps = some (splitDataSpec timesteps cols dataset)) ∧
    (splitDataSpec timesteps cols dataset).length = dataset.length * (cols / timesteps) ∧
    (∀ row ∈ splitDataSpec timesteps cols dataset, row.length = timesteps) := by
  have heq := split_data_eq timesteps ht cols dataset hwf
  refine ⟨?_, ?_, splitDataSpec_length timesteps cols dataset,
    splitDataSpec_widths timesteps cols dataset hwf⟩
  · rw [heq]
    by_cases h : cols < timesteps
    · simp [h]
    · simp [h]
  · intro hle
    rw [heq, if_neg (by omega)]

/-- Witness for C9: a one-row dataset with 5 columns split at 2 timesteps
(two complete slices, the final single column discarded). -/
theorem split_data_correct_witness :
    (split_data 5 [[1, 2, 3, 4, 5]] 2 = none ↔ 5 < 2) ∧
    (2 ≤ 5 → split_data 5 [[1, 2, 3, 4, 5]] 2 = some (splitDataSpec 2 5 [[1, 2, 3, 4, 5]])) ∧
    (splitDataSpec 2 5 [[1, 2, 3, 4, 5]]).length = 1 * (5 / 2) ∧
    (∀ row ∈ splitDataSpec 2 5 [[1, 2, 3, 4, 5]], row.length = 2) :=
  split_data_correct 5 2 [[1, 2, 3, 4, 5]] (by norm_num)
    (by
      intro row hr
      rw [List.mem_singleton] at hr
      rw [hr]
      rfl)

end GanUtils
